import Mathlib

/-
Shallow embedding of the review-mind-rag retrieval / reranking / indexing /
evaluation core, together with theorems settling the frozen claims about it.

Conventions used throughout the embedding:
  * Python `float` values that only ever hold finite numeric data (scores,
    metric values, memory sizes) are modelled by `ℚ`; `float('inf')` is an
    explicit constructor of a dedicated improvement type.
  * Python strings are modelled by `String` except in the contextual query
    rewriter, where character counts matter and `List Char` makes the length
    arithmetic direct (Python `len`/slicing act on code points, exactly the
    `List Char` view of a Lean `String`).
  * External services (the cross-encoder, the LLM, the vector index) are
    parameters of the embedded functions: a pure scoring function, a pure
    generation oracle returning `Option` (`none` = the call raised), and pure
    search functions.  One embedded run corresponds to one fixed behaviour of
    those services.
  * Python `sorted(..., reverse=True)` (a stable sort) is modelled by
    Mathlib's stable `List.insertionSort r` with `r a b := key b ≤ key a`,
    which places `a` before `b` exactly when Python's descending stable sort
    does.
  * Python truthiness on optional arguments (`top_n or self.top_n`,
    `fetch_k or k * 4`, `if category:`) is modelled explicitly.
-/

namespace ReviewMindRag

/-- A LangChain `Document` as used by the reranker and retriever:
`page_content` plus a metadata dictionary (only numeric metadata is ever
written by the embedded code, so values are `ℚ`). -/
structure Doc where
  content : String
  meta : List (String × ℚ)
deriving DecidableEq, Repr

/-- Python `doc.metadata[key] = v`: overwrite the binding for `key`. -/
def Doc.setMeta (d : Doc) (key : String) (v : ℚ) : Doc :=
  { d with meta := (key, v) :: d.meta.filter (fun p => p.1 ≠ key) }

/-- Python `n or d` for an optional integer argument: `None` and `0` are
falsy and select the default `d`. -/
def pyOrNat (o : Option Nat) (d : Nat) : Nat :=
  match o with
  | none => d
  | some n => if n = 0 then d else n

/-- Stable descending sort by a rational key, the model of Python's
`sorted(xs, key=key, reverse=True)`. -/
def sortDescBy (key : α → ℚ) (l : List α) : List α :=
  List.insertionSort (fun a b => key b ≤ key a) l

theorem sortDescBy_perm (key : α → ℚ) (l : List α) : (sortDescBy key l).Perm l :=
  List.perm_insertionSort _ l

theorem sortDescBy_sorted (key : α → ℚ) (l : List α) :
    (sortDescBy key l).Pairwise (fun a b => key b ≤ key a) := by
  have htot : IsTotal α (fun a b => key b ≤ key a) := ⟨fun a b => le_total (key b) (key a)⟩
  have htrans : IsTrans α (fun a b => key b ≤ key a) :=
    ⟨fun _ _ _ h1 h2 => le_trans h2 h1⟩
  exact List.sorted_insertionSort _ l

/-! ## Reranker (`src/rag/reranker.py`, class `KoreanReranker`)

The cross-encoder `self.model.predict(pairs)` is abstracted as a pure
scoring function `score : String → String → ℚ` applied to each
`(query, doc.page_content)` pair; `self.score_threshold` and `self.top_n`
are explicit parameters. -/

/-- `KoreanReranker.rerank`: score, stable-sort descending, truncate to the
effective `top_n` (`top_n or self.top_n`, so `None`/`0` fall back to the
configured default), keep only scores `≥ score_threshold`, and write the
score into each surviving document's metadata. -/
def rerank (score : String → String → ℚ) (scoreThreshold : ℚ) (selfTopN : Nat)
    (query : String) (documents : List Doc) (topN : Option Nat) : List Doc :=
  if documents.isEmpty then []
  else
    let n := pyOrNat topN selfTopN
    let scored := documents.map fun d => (score query d.content, d)
    let sortedScored := sortDescBy (fun p => p.1) scored
    ((sortedScored.take n).filter fun p => scoreThreshold ≤ p.1).map
      fun p => p.2.setMeta "rerank_score" p.1

/-- `KoreanReranker.rerank_with_scores`: score, stable-sort descending by
score, and keep the `(document, score)` pairs whose score is at least
`score_threshold` (no `top_n` truncation, no metadata write). -/
def rerankWithScores (score : String → String → ℚ) (scoreThreshold : ℚ)
    (query : String) (documents : List Doc) : List (Doc × ℚ) :=
  if documents.isEmpty then []
  else
    let scored := documents.map fun d => (d, score query d.content)
    (sortDescBy (fun p => p.2) scored).filter fun p => scoreThreshold ≤ p.2

/-- Modelled from the claim's words for comparison (claim C1): all
`(document, score)` pairs sorted descending, with no threshold filter. -/
def rerankWithScoresNoFilter (score : String → String → ℚ)
    (query : String) (documents : List Doc) : List (Doc × ℚ) :=
  sortDescBy (fun p => p.2) (documents.map fun d => (d, score query d.content))

/-- Modelled from the claim's words for comparison (claim C2): stable-sort
descending, first drop every candidate scoring below the threshold, only
then truncate to `n`. -/
def rerankFilterFirst (score : String → String → ℚ) (scoreThreshold : ℚ)
    (n : Nat) (query : String) (documents : List Doc) : List Doc :=
  (((sortDescBy (fun p => p.1) (documents.map fun d => (score query d.content, d))).filter
      fun p => scoreThreshold ≤ p.1).take n).map
    fun p => p.2.setMeta "rerank_score" p.1

/-- On a list sorted descending by `key`, the elements with `key ≥ t` form a
prefix, so filtering by the threshold and truncating commute. -/
theorem take_filter_comm_of_sortedDesc (key : α → ℚ) (t : ℚ) :
    ∀ (l : List α), l.Pairwise (fun a b => key b ≤ key a) → ∀ n : Nat,
      (l.take n).filter (fun a => decide (t ≤ key a))
        = (l.filter (fun a => decide (t ≤ key a))).take n := by
  intro l
  induction l with
  | nil => intro _ n; simp
  | cons x xs ih =>
    intro hsort n
    have hx : ∀ y ∈ xs, key y ≤ key x := fun y hy => List.rel_of_pairwise_cons hsort hy
    have hxs : xs.Pairwise (fun a b => key b ≤ key a) := hsort.of_cons
    by_cases hkey : t ≤ key x
    · cases n with
      | zero => simp
      | succ m =>
        simp only [List.take_succ_cons, List.filter_cons, decide_eq_true hkey]
        simpa using ih hxs m
    · have hlt : ∀ y ∈ xs, ¬ t ≤ key y := fun y hy h =>
        hkey (le_trans h (hx y hy))
      have hfilxs : xs.filter (fun a => decide (t ≤ key a)) = [] := by
        rw [List.filter_eq_nil_iff]
        intro y hy
        simpa using hlt y hy
      have hfiltake : ∀ m : Nat, (xs.take m).filter (fun a => decide (t ≤ key a)) = [] := by
        intro m
        rw [List.filter_eq_nil_iff]
        intro y hy
        simpa using hlt y (List.take_subset m xs hy)
      cases n with
      | zero => simp
      | succ m =>
        simp only [List.take_succ_cons, List.filter_cons, hfilxs]
        simp [hkey, hfiltake m]

/-- C1 (counterexample): `rerank_with_scores` does NOT return all pairs — with
score threshold `1` and a single candidate scoring `0`, the code returns `[]`
while the claim predicts the full sorted pair list `[(doc, 0)]`.  The
threshold filter IS applied in this variant (reranker.py line 135). -/
theorem claim_C1_counterexample :
    rerankWithScores (fun _ _ => 0) 1 "q" [⟨"doc", []⟩]
      ≠ rerankWithScoresNoFilter (fun _ _ => 0) "q" [⟨"doc", []⟩] := by
  decide

/-- C1 (amended): for every query and candidate list, `rerank_with_scores`
returns the `(document, score)` pairs sorted descending by cross-encoder
score, keeping exactly the pairs whose score is at least the reranker's
score threshold (the threshold filter IS applied; there is no `top_n`
truncation). -/
theorem claim_C1_amended (score : String → String → ℚ) (t : ℚ) (query : String)
    (documents : List Doc) :
    (rerankWithScores score t query documents).Pairwise (fun a b => b.2 ≤ a.2) ∧
    (rerankWithScores score t query documents).Perm
      ((documents.map fun d => (d, score query d.content)).filter
        fun p => t ≤ p.2) := by
  by_cases h : documents.isEmpty
  · have hnil : documents = [] := by
      cases documents with
      | nil => rfl
      | cons a l => simp [List.isEmpty] at h
    subst hnil
    simp [rerankWithScores]
  · constructor
    · have hs := sortDescBy_sorted (fun p : Doc × ℚ => p.2)
        (documents.map fun d => (d, score query d.content))
      simp only [rerankWithScores, h, Bool.false_eq_true, if_false]
      exact List.Pairwise.sublist (List.filter_sublist _) hs
    · have hp := sortDescBy_perm (fun p : Doc × ℚ => p.2)
        (documents.map fun d => (d, score query d.content))
      simp only [rerankWithScores, h, Bool.false_eq_true, if_false]
      exact hp.filter _

/-- C2 (counterexample): the claim fails at `top_n = 0`, which is falsy in
Python, so `top_n or self.top_n` silently replaces it with the configured
default (`5` here): with one candidate scoring at the threshold, at least
`0` candidates score at or above the threshold, so the claim predicts
exactly `0` returned documents, but the code returns the candidate. -/
theorem claim_C2_counterexample :
    rerank (fun _ _ => 0) 0 5 "q" [⟨"doc", []⟩] (some 0) ≠ [] := by
  decide

/-- C2 (amended): with the effective truncation bound `pyOrNat top_n
self.top_n` (the passed `top_n` when positive, else the configured default),
`rerank` returns exactly the result of threshold-filtering the
descending-sorted candidates first and truncating afterwards, and whenever
at least that many candidates score at or above the threshold it returns
exactly that many documents. -/
theorem claim_C2_amended (score : String → String → ℚ) (t : ℚ) (selfTopN : Nat)
    (query : String) (documents : List Doc) (topN : Option Nat) :
    rerank score t selfTopN query documents topN
      = rerankFilterFirst score t (pyOrNat topN selfTopN) query documents ∧
    (pyOrNat topN selfTopN ≤
        ((documents.map fun d => (score query d.content, d)).filter
          fun p => t ≤ p.1).length →
      (rerank score t selfTopN query documents topN).length
        = pyOrNat topN selfTopN) := by
  have heq : rerank score t selfTopN query documents topN
      = rerankFilterFirst score t (pyOrNat topN selfTopN) query documents := by
    by_cases h : documents.isEmpty
    · have hnil : documents = [] := by
        cases documents with
        | nil => rfl
        | cons a l => simp [List.isEmpty] at h
      subst hnil
      simp [rerank, rerankFilterFirst, sortDescBy]
    · have hs := sortDescBy_sorted (fun p : ℚ × Doc => p.1)
        (documents.map fun d => (score query d.content, d))
      simp only [rerank, rerankFilterFirst, h, Bool.false_eq_true, if_false]
      rw [take_filter_comm_of_sortedDesc (fun p : ℚ × Doc => p.1) t _ hs]
  refine ⟨heq, fun hge => ?_⟩
  rw [heq]
  have hperm := (sortDescBy_perm (fun p : ℚ × Doc => p.1)
      (documents.map fun d => (score query d.content, d))).filter
    (fun p => decide (t ≤ p.1))
  have hlen := hperm.length_eq
  simp only [rerankFilterFirst, List.length_map, List.length_take]
  rw [hlen]
  exact Nat.min_eq_left hge

/-- Witness for `claim_C2_amended` at a concrete input: one candidate scoring
at the threshold, effective `top_n = 1`, so exactly one document returns. -/
theorem claim_C2_amended_witness :
    (rerank (fun _ _ => 0) 0 1 "q" [⟨"doc", []⟩] none).length = 1 :=
  (claim_C2_amended (fun _ _ => 0) 0 1 "q" [⟨"doc", []⟩] none).2 (by decide)

/-! ## Retrieval metrics (`src/analysis/metrics.py`)

Metric values are `ℚ`; `K` arguments are `ℤ` (Python ints, the `K ≤ 0`
guard is meaningful); a retrieved-id list is a `List String` and a
relevant-id set is a `List String` queried by membership. -/

/-- `RetrievalMetrics.precision_at_k`: `0` when `k ≤ 0` or nothing was
retrieved, otherwise (relevant among the first `k`) divided by the length of
`retrieved[:k]` — NOT by `k`. -/
def precision_at_k (retrievedIds : List String) (relevantIds : List String)
    (k : ℤ) : ℚ :=
  if k ≤ 0 then 0
  else
    let topK := retrievedIds.take k.toNat
    if topK.isEmpty then 0
    else ((topK.filter fun i => relevantIds.contains i).length : ℚ) / (topK.length : ℚ)

/-- `RetrievalMetrics.recall_at_k` (context for the suite; not itself under
claim): `0` when there are no relevant ids or `k ≤ 0`, else relevant among
the first `k` divided by the number of relevant ids. -/
def recall_at_k (retrievedIds : List String) (relevantIds : List String)
    (k : ℤ) : ℚ :=
  if relevantIds.isEmpty ∨ k ≤ 0 then 0
  else (((retrievedIds.take k.toNat).filter fun i => relevantIds.contains i).length : ℚ)
    / (relevantIds.length : ℚ)

/-- C3 (counterexample): with `retrieved = ["a"]`, `relevant = {"a"}` and
`K = 3`, the code returns `1` (denominator `len(retrieved[:3]) = 1`), not
the claim's `1/3` (denominator `K`). -/
theorem claim_C3_counterexample :
    precision_at_k ["a"] ["a"] 3 ≠ (1 : ℚ) / 3 := by
  have h : precision_at_k ["a"] ["a"] 3 = 1 := by
    norm_num [precision_at_k, List.take, List.filter]
  rw [h]
  norm_num

/-- C3 (amended): `precision_at_k` returns the number of relevant ids among
the first `K` retrieved divided by the number of ids actually retrieved in
the top `K` (that is `min K (number retrieved)`), returning `0` when
`K ≤ 0` and when nothing was retrieved. -/
theorem claim_C3_amended (retrievedIds relevantIds : List String) (k : ℤ) :
    (k ≤ 0 → precision_at_k retrievedIds relevantIds k = 0) ∧
    (retrievedIds = [] → precision_at_k retrievedIds relevantIds k = 0) ∧
    (0 < k → retrievedIds ≠ [] →
      precision_at_k retrievedIds relevantIds k
        = (((retrievedIds.take k.toNat).filter
              fun i => relevantIds.contains i).length : ℚ)
          / ((min k.toNat retrievedIds.length : Nat) : ℚ)) := by
  refine ⟨fun hk => by simp [precision_at_k, hk], fun hr => ?_, fun hk hne => ?_⟩
  · subst hr
    simp [precision_at_k]
  · have hk' : ¬ k ≤ 0 := not_le.mpr hk
    have hkt : k.toNat ≠ 0 := by omega
    have htk : retrievedIds.take k.toNat ≠ [] := by
      intro h
      rcases List.take_eq_nil_iff.mp h with h1 | h2
      · exact hkt h1
      · exact hne h2
    simp only [precision_at_k, hk', if_false]
    rw [if_neg (by simpa using htk)]
    rw [List.length_take]

/-- Witness for `claim_C3_amended`: two retrieved ids, one relevant, `K = 3`
— the code divides by `min(K, retrieved) = 2`, giving `1/2`. -/
theorem claim_C3_amended_witness :
    precision_at_k ["a", "b"] ["a"] 3 = (1 : ℚ) / 2 :=
  ((claim_C3_amended ["a", "b"] ["a"] 3).2.2 (by norm_num) (by decide)).trans
    (by norm_num [List.take, List.filter,
      show decide (("b" : String) = "a") = false from rfl])

/-- The three summary metrics of an `EvaluationResult` that
`RetrievalEvaluator.compare` feeds to its improvement computation (the
unrounded dataclass fields, not the `to_dict` rendering). -/
structure EvalResult where
  mrr : ℚ
  hitRate : ℚ
  ndcg : ℚ
deriving DecidableEq, Repr

/-- An improvement percentage as reported by `compare`: a finite float or
`float('inf')`. -/
inductive Improvement where
  | finite (value : ℚ)
  | infinite
deriving DecidableEq, Repr

/-- Python `round(q)` to the nearest integer, ties to even. -/
def roundHalfEven (q : ℚ) : ℤ :=
  let f := ⌊q⌋
  let frac := q - (f : ℚ)
  if frac < 1 / 2 then f
  else if 1 / 2 < frac then f + 1
  else if f % 2 = 0 then f else f + 1

/-- Python `round(q, 2)`. -/
def round2 (q : ℚ) : ℚ := (roundHalfEven (q * 100) : ℚ) / 100

/-- The inner `calc_improvement` of `RetrievalEvaluator.compare`. -/
def calcImprovement (baseline reranked : ℚ) : Improvement :=
  if baseline = 0 then (if reranked = 0 then .finite 0 else .infinite)
  else .finite ((reranked - baseline) / baseline * 100)

/-- `round(x, 2)` as applied by `compare` to each improvement
(`round(float('inf'), 2)` is `inf`). -/
def Improvement.round2d : Improvement → Improvement
  | .finite q => .finite (round2 q)
  | .infinite => .infinite

/-- The per-metric improvement block of `compare`'s return value. -/
structure ImprovementReport where
  mrr : Improvement
  hitRate : Improvement
  ndcg : Improvement
deriving DecidableEq, Repr

/-- The improvement block computed by `RetrievalEvaluator.compare` from the
two evaluations (metrics.py lines 317-329). -/
def compareImprovement (baseline reranked : EvalResult) : ImprovementReport :=
  { mrr := (calcImprovement baseline.mrr reranked.mrr).round2d
    hitRate := (calcImprovement baseline.hitRate reranked.hitRate).round2d
    ndcg := (calcImprovement baseline.ndcg reranked.ndcg).round2d }

/-- Behaviour of one rounded improvement entry, per case. -/
theorem calcImprovement_round2d_cases (b r : ℚ) :
    (b = 0 ∧ r = 0 → (calcImprovement b r).round2d = .finite 0) ∧
    (b = 0 ∧ 0 < r → (calcImprovement b r).round2d = .infinite) ∧
    (b ≠ 0 → (calcImprovement b r).round2d
      = .finite (round2 ((r - b) / b * 100))) := by
  refine ⟨fun ⟨h1, h2⟩ => ?_, fun ⟨h1, h2⟩ => ?_, fun h => ?_⟩
  · subst h1; subst h2
    have h0 : round2 0 = 0 := by
      unfold round2 roundHalfEven
      norm_num
    simp [calcImprovement, Improvement.round2d, h0]
  · subst h1
    simp [calcImprovement, Improvement.round2d, ne_of_gt h2]
  · simp [calcImprovement, Improvement.round2d, h]

/-- C5 (counterexample): the reported improvement is the percentage formula
ROUNDED to two decimals, not the raw formula — with a baseline MRR of `1/2`
and a reranked MRR of `1/3` (each reachable from a single-query evaluation
list whose first relevant hit is at rank 2 resp. 3), the raw formula gives
`-100/3` % while the code reports `-33.33` %. -/
theorem claim_C5_counterexample :
    (compareImprovement ⟨1/2, 1, 1⟩ ⟨1/3, 1, 1⟩).mrr
      ≠ .finite ((1/3 - 1/2) / (1/2) * 100) := by
  have hval : ((1/3 - 1/2 : ℚ) / (1/2) * 100) = -100 / 3 := by norm_num
  have hfloor : ⌊(-100 / 3 * 100 : ℚ)⌋ = -3334 := by norm_num [Int.floor_eq_iff]
  have hround : round2 (-100 / 3) = -3333 / 100 := by
    unfold round2 roundHalfEven
    rw [hfloor]
    norm_num
  have hcode : (compareImprovement ⟨1/2, 1, 1⟩ ⟨1/3, 1, 1⟩).mrr
      = .finite (-3333 / 100) := by
    have h := (calcImprovement_round2d_cases (1/2 : ℚ) (1/3 : ℚ)).2.2 (by norm_num)
    simp only [compareImprovement] at *
    rw [h, hval] at *
    rw [hround]
  rw [hcode, hval]
  intro h
  have := Improvement.finite.inj h
  norm_num at this

/-- C5 (amended): for every pair of evaluations, `compare` reports each
per-metric improvement as `(reranked - baseline) / baseline * 100` rounded
to two decimal places when the baseline is nonzero, exactly `0` when
baseline and reranked are both `0`, and exactly positive infinity when the
baseline is `0` and the reranked value is positive. -/
theorem claim_C5_amended (b r : EvalResult) :
    ((b.mrr = 0 ∧ r.mrr = 0 → (compareImprovement b r).mrr = .finite 0) ∧
     (b.mrr = 0 ∧ 0 < r.mrr → (compareImprovement b r).mrr = .infinite) ∧
     (b.mrr ≠ 0 → (compareImprovement b r).mrr
        = .finite (round2 ((r.mrr - b.mrr) / b.mrr * 100)))) ∧
    ((b.hitRate = 0 ∧ r.hitRate = 0 →
        (compareImprovement b r).hitRate = .finite 0) ∧
     (b.hitRate = 0 ∧ 0 < r.hitRate →
        (compareImprovement b r).hitRate = .infinite) ∧
     (b.hitRate ≠ 0 → (compareImprovement b r).hitRate
        = .finite (round2 ((r.hitRate - b.hitRate) / b.hitRate * 100)))) ∧
    ((b.ndcg = 0 ∧ r.ndcg = 0 → (compareImprovement b r).ndcg = .finite 0) ∧
     (b.ndcg = 0 ∧ 0 < r.ndcg → (compareImprovement b r).ndcg = .infinite) ∧
     (b.ndcg ≠ 0 → (compareImprovement b r).ndcg
        = .finite (round2 ((r.ndcg - b.ndcg) / b.ndcg * 100)))) :=
  ⟨calcImprovement_round2d_cases b.mrr r.mrr,
   calcImprovement_round2d_cases b.hitRate r.hitRate,
   calcImprovement_round2d_cases b.ndcg r.ndcg⟩

/-- Witness for `claim_C5_amended`: with both MRRs `0`, reported improvement
is exactly `0`; with baseline hit rate `0` and reranked hit rate `1`,
reported improvement is infinite. -/
theorem claim_C5_amended_witness :
    (compareImprovement ⟨0, 0, 1⟩ ⟨0, 1, 1⟩).mrr = .finite 0 ∧
    (compareImprovement ⟨0, 0, 1⟩ ⟨0, 1, 1⟩).hitRate = .infinite :=
  ⟨(claim_C5_amended ⟨0, 0, 1⟩ ⟨0, 1, 1⟩).1.1 ⟨rfl, rfl⟩,
   (claim_C5_amended ⟨0, 0, 1⟩ ⟨0, 1, 1⟩).2.1.2.1 ⟨rfl, one_pos⟩⟩

/-! ## Batch indexing (`src/rag/vectorstore.py`, class `ReviewVectorStore`)

The loop `for i in range(0, total, batch_size): batch = documents[i:i+batch_size]`
is modelled by chunking the document list; the index-write
`self.vectorstore.add_documents(batch)` is recorded as the ordered list of
batches submitted.  Fuel-based recursion keeps the chunking kernel-reducible;
the fuel `l.length` is always sufficient when `0 < batchSize`. -/

def chunksGo (bs : Nat) : Nat → List α → List (List α)
  | 0, _ => []
  | _, [] => []
  | fuel + 1, a :: l => (a :: l).take bs :: chunksGo bs fuel ((a :: l).drop bs)

/-- The successive slices `documents[i:i+batch_size]` for
`i = 0, batch_size, 2*batch_size, ...`. -/
def chunksOf (bs : Nat) (l : List α) : List (List α) := chunksGo bs l.length l

theorem chunksGo_length {bs : Nat} (hbs : 0 < bs) :
    ∀ (fuel : Nat) (l : List α), l.length ≤ fuel →
      (chunksGo bs fuel l).length = (l.length + bs - 1) / bs := by
  intro fuel
  induction fuel with
  | zero =>
    intro l hl
    have : l = [] := List.eq_nil_of_length_eq_zero (Nat.le_zero.mp hl)
    subst this
    simp [chunksGo, Nat.div_eq_of_lt (by omega : bs - 1 < bs)]
  | succ fuel ih =>
    intro l hl
    cases l with
    | nil => simp [chunksGo, Nat.div_eq_of_lt (by omega : bs - 1 < bs)]
    | cons a l' =>
      have hn : (a :: l').length = l'.length + 1 := rfl
      have hdrop : ((a :: l').drop bs).length = l'.length + 1 - bs := by
        simp [List.length_drop]
      have hfuel : ((a :: l').drop bs).length ≤ fuel := by
        rw [hdrop]; simp at hl; omega
      have hrec := ih ((a :: l').drop bs) hfuel
      show (chunksGo bs fuel ((a :: l').drop bs)).length + 1
          = ((a :: l').length + bs - 1) / bs
      rw [hrec, hdrop, hn]
      rcases le_or_lt (l'.length + 1) bs with hle | hgt
      · have h1 : l'.length + 1 - bs = 0 := by omega
        rw [h1]
        rw [Nat.div_eq_of_lt (by omega : 0 + bs - 1 < bs)]
        have h2 : l'.length + 1 + bs - 1 = l'.length + bs := by omega
        rw [h2]
        have h3 : (l'.length + bs) / bs = l'.length / bs + 1 := Nat.add_div_right _ hbs
        rw [h3, Nat.div_eq_of_lt (by omega : l'.length < bs)]
      · have e1 : l'.length + 1 - bs + bs - 1 = l'.length := by omega
        have e2 : l'.length + 1 + bs - 1 = l'.length + bs := by omega
        rw [e1, e2, Nat.add_div_right _ hbs]

theorem chunksGo_sum_length {bs : Nat} (hbs : 0 < bs) :
    ∀ (fuel : Nat) (l : List α), l.length ≤ fuel →
      ((chunksGo bs fuel l).map List.length).sum = l.length := by
  intro fuel
  induction fuel with
  | zero =>
    intro l hl
    have : l = [] := List.eq_nil_of_length_eq_zero (Nat.le_zero.mp hl)
    subst this
    simp [chunksGo]
  | succ fuel ih =>
    intro l hl
    cases l with
    | nil => simp [chunksGo]
    | cons a l' =>
      have hdrop : ((a :: l').drop bs).length = l'.length + 1 - bs := by
        simp [List.length_drop]
      have hfuel : ((a :: l').drop bs).length ≤ fuel := by
        rw [hdrop]; simp at hl; omega
      have hrec := ih ((a :: l').drop bs) hfuel
      show ((a :: l').take bs).length
            + ((chunksGo bs fuel ((a :: l').drop bs)).map List.length).sum
          = (a :: l').length
      rw [hrec, hdrop, List.length_take]
      have : (a :: l').length = l'.length + 1 := rfl
      rw [this]
      omega

theorem chunksGo_pos_length {bs : Nat} (hbs : 0 < bs) :
    ∀ (fuel : Nat) (l : List α), ∀ c ∈ chunksGo bs fuel l, 0 < c.length := by
  intro fuel
  induction fuel with
  | zero => intro l c hc; simp [chunksGo] at hc
  | succ fuel ih =>
    intro l c hc
    cases l with
    | nil => simp [chunksGo] at hc
    | cons a l' =>
      simp only [chunksGo] at hc
      rcases List.mem_cons.mp hc with hc | hc
      · subst hc
        simp [List.length_take]
        omega
      · exact ih _ c hc

/-- `ReviewVectorStore.add_documents`: submits each batch to the index in
order and returns `added` (the sum of the batch sizes).  The first component
is the trace of index-write calls, the second the returned count. -/
def add_documents (documents : List δ) (batchSize : Nat) :
    List (List δ) × Nat :=
  let batches := chunksOf batchSize documents
  (batches, (batches.map List.length).sum)

/-- The successive `progress_callback(added, total)` invocations produced by
walking the batch sizes `ns` with the running count started at `acc`. -/
def progressCalls (total : Nat) : Nat → List Nat → List (Nat × Nat)
  | _, [] => []
  | acc, n :: ns => (acc + n, total) :: progressCalls total (acc + n) ns

/-- `ReviewVectorStore.add_documents_with_progress`: as `add_documents`, but
additionally invokes the callback once after every batch with the cumulative
count and the total.  Components: index-write trace, callback-argument
trace, returned count. -/
def add_documents_with_progress (documents : List δ) (batchSize : Nat) :
    List (List δ) × List (Nat × Nat) × Nat :=
  let batches := chunksOf batchSize documents
  (batches, progressCalls documents.length 0 (batches.map List.length),
   (batches.map List.length).sum)

theorem progressCalls_length (total : Nat) :
    ∀ (acc : Nat) (ns : List Nat),
      (progressCalls total acc ns).length = ns.length := by
  intro acc ns
  induction ns generalizing acc with
  | nil => rfl
  | cons n ns ih => simp [progressCalls, ih]

theorem progressCalls_mem (total : Nat) :
    ∀ (acc : Nat) (ns : List Nat), ∀ p ∈ progressCalls total acc ns,
      p.1 ≤ acc + ns.sum ∧ p.2 = total := by
  intro acc ns
  induction ns generalizing acc with
  | nil => intro p hp; simp [progressCalls] at hp
  | cons n ns ih =>
    intro p hp
    rcases List.mem_cons.mp hp with hp | hp
    · subst hp
      constructor
      · simp [List.sum_cons]
      · rfl
    · have := ih (acc + n) p hp
      refine ⟨?_, this.2⟩
      have h1 := this.1
      simp [List.sum_cons]
      omega

theorem progressCalls_chain (total : Nat) :
    ∀ (acc : Nat) (ns : List Nat), (∀ n ∈ ns, 0 < n) →
      (progressCalls total acc ns).Chain' (fun p q => p.1 < q.1) := by
  intro acc ns
  induction ns generalizing acc with
  | nil => intro _; simp [progressCalls]
  | cons n ns ih =>
    intro hpos
    cases ns with
    | nil => simp [progressCalls]
    | cons m ms =>
      have htail := ih (acc + n) (fun x hx => hpos x (List.mem_cons_of_mem _ hx))
      refine List.Chain'.cons ?_ htail
      have hm : 0 < m := hpos m (List.mem_cons_of_mem _ (List.mem_cons_self _ _))
      simp [progressCalls]
      omega

theorem progressCalls_last (total : Nat) :
    ∀ (acc : Nat) (ns : List Nat), ns ≠ [] →
      (progressCalls total acc ns).getLast? = some (acc + ns.sum, total) := by
  intro acc ns
  induction ns generalizing acc with
  | nil => intro h; exact absurd rfl h
  | cons n ns ih =>
    intro _
    cases ns with
    | nil => simp [progressCalls]
    | cons m ms =>
      have := ih (acc + n) (by simp)
      simp only [progressCalls]
      rw [List.getLast?_cons_cons]
      simp only [progressCalls] at this
      rw [this]
      simp [List.sum_cons]
      omega

/-- C7: for every document list of length `N` and batch size `B > 0`, both
fixed-batch and progress-tracked ingestion issue exactly `⌈N/B⌉` index-write
calls and return `N`; the progress callback fires once per batch with
`(cumulative, N)`, the cumulative counts strictly increasing and bounded by
`N`, and the final invocation receives exactly `(N, N)`. -/
theorem claim_C7 (documents : List δ) (batchSize : Nat) (hbs : 0 < batchSize) :
    ((add_documents documents batchSize).1.length
        = (documents.length + batchSize - 1) / batchSize) ∧
    (add_documents documents batchSize).2 = documents.length ∧
    ((add_documents_with_progress documents batchSize).1.length
        = (documents.length + batchSize - 1) / batchSize) ∧
    (add_documents_with_progress documents batchSize).2.2 = documents.length ∧
    ((add_documents_with_progress documents batchSize).2.1.length
        = (documents.length + batchSize - 1) / batchSize) ∧
    ((add_documents_with_progress documents batchSize).2.1.Chain'
        (fun p q => p.1 < q.1)) ∧
    (∀ p ∈ (add_documents_with_progress documents batchSize).2.1,
        p.1 ≤ documents.length ∧ p.2 = documents.length) ∧
    (documents ≠ [] →
        (add_documents_with_progress documents batchSize).2.1.getLast?
          = some (documents.length, documents.length)) := by
  have hlen : (chunksOf batchSize documents).length
      = (documents.length + batchSize - 1) / batchSize :=
    chunksGo_length hbs documents.length documents le_rfl
  have hsum : ((chunksOf batchSize documents).map List.length).sum
      = documents.length := chunksGo_sum_length hbs documents.length documents le_rfl
  have hpos : ∀ n ∈ (chunksOf batchSize documents).map List.length, 0 < n := by
    intro n hn
    rcases List.mem_map.mp hn with ⟨c, hc, rfl⟩
    exact chunksGo_pos_length hbs documents.length documents c hc
  have hcblen := progressCalls_length documents.length 0
    ((chunksOf batchSize documents).map List.length)
  have hlenmap : ((chunksOf batchSize documents).map List.length).length
      = (chunksOf batchSize documents).length := List.length_map _ _
  refine ⟨?_, ?_, ?_, ?_, ?_, ?_, ?_, ?_⟩
  · exact hlen
  · exact hsum
  · exact hlen
  · exact hsum
  · rw [show (add_documents_with_progress documents batchSize).2.1
        = progressCalls documents.length 0
            ((chunksOf batchSize documents).map List.length) from rfl]
    rw [hcblen, hlenmap, hlen]
  · exact progressCalls_chain documents.length 0 _ hpos
  · intro p hp
    have h := progressCalls_mem documents.length 0 _ p hp
    refine ⟨?_, h.2⟩
    have h1 := h.1
    rw [hsum] at h1
    omega
  · intro hne
    have hN : 0 < documents.length := List.length_pos.mpr hne
    have hchunks : (chunksOf batchSize documents).map List.length ≠ [] := by
      intro h
      have h0 : (chunksOf batchSize documents).length = 0 := by
        rw [← hlenmap, h]; rfl
      rw [hlen] at h0
      have : batchSize ≤ documents.length + batchSize - 1 := by omega
      have := (Nat.one_le_div_iff hbs).mpr this
      omega
    have := progressCalls_last documents.length 0 _ hchunks
    rw [show (add_documents_with_progress documents batchSize).2.1
        = progressCalls documents.length 0
            ((chunksOf batchSize documents).map List.length) from rfl]
    rw [this, hsum]
    simp

/-- Witness for `claim_C7` at `N = 3`, `B = 2`: two write calls, and the
final callback receives `(3, 3)`. -/
theorem claim_C7_witness :
    (add_documents [0, 1, 2] 2).1.length = 2 ∧
    (add_documents_with_progress [0, 1, 2] 2).2.1.getLast? = some (3, 3) :=
  ⟨(claim_C7 [0, 1, 2] 2 (by decide)).1,
   (claim_C7 [0, 1, 2] 2 (by decide)).2.2.2.2.2.2.2 (by decide)⟩

/-- The fatal error raised by `add_documents_with_retry` when a batch
exhausts its retries: it names the failing batch index (`i // batch_size`)
and wraps the underlying cause (`raise IndexingError(...) from e`). -/
structure IndexingErrorInfo (ε : Type) where
  batchIdx : Nat
  cause : ε
deriving DecidableEq, Repr

/-- The dictionary returned by a successful `add_documents_with_retry` run. -/
structure RetryOutcome where
  success : Bool
  processed : Nat
  retryCount : Nat
deriving DecidableEq, Repr

/-- The `while retries <= max_retries` loop for one batch.  `f r` is the
outcome of the index-write call on attempt `r` (`none` = success, `some e` =
the call raised `e`).  Returns `(failures, sleeps, outcome)`: how many
attempts raised, how many `time.sleep(retry_delay)` calls ran, and whether
the batch eventually succeeded.  Fuel-based recursion; the invariant
`r + fuel = maxRetries + 1` makes the fuel-exhausted branch unreachable from
the top-level call `attemptLoop f maxRetries 0 (maxRetries + 1)`. -/
def attemptLoop (f : Nat → Option ε) (maxRetries : Nat) :
    Nat → Nat → Nat × Nat × Except ε Unit
  | r, 0 => (r, r, Except.ok ())
  | r, fuel + 1 =>
    match f r with
    | none => (r, r, Except.ok ())
    | some e =>
      if maxRetries < r + 1 then (r + 1, r, Except.error e)
      else attemptLoop f maxRetries (r + 1) fuel

/-- The per-batch loop of `add_documents_with_retry`, walking the batches
with the current batch index, the running `added` count and the running
`total_retries` count. -/
def addRetryGo (f : Nat → Nat → Option ε) (maxRetries : Nat) :
    List (List δ) → Nat → Nat → Nat → Except (IndexingErrorInfo ε) RetryOutcome
  | [], _, added, totalRetries =>
    Except.ok ⟨true, added, totalRetries⟩
  | b :: bs, idx, added, totalRetries =>
    match attemptLoop (f idx) maxRetries 0 (maxRetries + 1) with
    | (failures, _, Except.ok _) =>
      addRetryGo f maxRetries bs (idx + 1) (added + b.length)
        (totalRetries + failures)
    | (_, _, Except.error e) => Except.error ⟨idx, e⟩

/-- `ReviewVectorStore.add_documents_with_retry`: `f b r` is the outcome of
attempt `r` on batch `b`. -/
def add_documents_with_retry (documents : List δ) (batchSize maxRetries : Nat)
    (f : Nat → Nat → Option ε) : Except (IndexingErrorInfo ε) RetryOutcome :=
  addRetryGo f maxRetries (chunksOf batchSize documents) 0 0 0

/-- Behaviour of one batch's attempt loop: a successful batch fails at most
`maxRetries` times and sleeps once per failure; an exhausted batch fails
exactly `maxRetries + 1` times, sleeps `maxRetries` times, every attempt
`0..maxRetries` raised, and the propagated cause is the last attempt's. -/
theorem attemptLoop_spec (f : Nat → Option ε) (mr : Nat) :
    ∀ (fuel r : Nat), r ≤ mr → r + fuel = mr + 1 →
      ((∀ u, (attemptLoop f mr r fuel).2.2 = Except.ok u →
          (attemptLoop f mr r fuel).1 ≤ mr ∧
          (attemptLoop f mr r fuel).2.1 = (attemptLoop f mr r fuel).1) ∧
       (∀ e, (attemptLoop f mr r fuel).2.2 = Except.error e →
          (attemptLoop f mr r fuel).1 = mr + 1 ∧
          (attemptLoop f mr r fuel).2.1 = mr ∧
          f mr = some e ∧
          ∀ j, r ≤ j → j ≤ mr → (f j).isSome)) := by
  intro fuel
  induction fuel with
  | zero => intro r hr hinv; omega
  | succ fuel ih =>
    intro r hr hinv
    cases hf : f r with
    | none =>
      have hred : attemptLoop f mr r (fuel + 1) = (r, r, Except.ok ()) := by
        simp [attemptLoop, hf]
      rw [hred]
      exact ⟨fun u _ => ⟨hr, rfl⟩, fun e he => by simp at he⟩
    | some e0 =>
      by_cases hstop : mr < r + 1
      · have hrm : r = mr := by omega
        have hred : attemptLoop f mr r (fuel + 1) = (r + 1, r, Except.error e0) := by
          simp [attemptLoop, hf, hstop]
        rw [hred]
        refine ⟨fun u hu => by simp at hu, fun e he => ?_⟩
        have he0 : e0 = e := by simpa using he
        subst he0
        subst hrm
        refine ⟨rfl, rfl, hf, fun j h1 h2 => ?_⟩
        have : j = r := by omega
        subst this
        simp [hf]
      · have hred : attemptLoop f mr r (fuel + 1) = attemptLoop f mr (r + 1) fuel := by
          simp [attemptLoop, hf, hstop]
        rw [hred]
        have hrec := ih (r + 1) (by omega) (by omega)
        refine ⟨hrec.1, fun e he => ?_⟩
        have h := hrec.2 e he
        refine ⟨h.1, h.2.1, h.2.2.1, fun j h1 h2 => ?_⟩
        by_cases hj : j = r
        · subst hj; simp [hf]
        · exact h.2.2.2 j (by omega) h2

/-- An error escaping the batch loop comes from one batch's attempt loop
raising, and carries that batch's index. -/
theorem addRetryGo_error (f : Nat → Nat → Option ε) (mr : Nat) :
    ∀ (bs : List (List δ)) (idx added tr : Nat) (info : IndexingErrorInfo ε),
      addRetryGo f mr bs idx added tr = Except.error info →
      (attemptLoop (f info.batchIdx) mr 0 (mr + 1)).2.2
        = Except.error info.cause := by
  intro bs
  induction bs with
  | nil => intro idx added tr info h; simp [addRetryGo] at h
  | cons b bs ih =>
    intro idx added tr info h
    rw [addRetryGo] at h
    rcases hal : attemptLoop (f idx) mr 0 (mr + 1) with ⟨fails, sleeps, out⟩
    rw [hal] at h
    cases out with
    | ok u => exact ih (idx + 1) (added + b.length) (tr + fails) info h
    | error e =>
      simp at h
      rw [← h]
      simp [hal]

theorem attemptLoop_first_none (f : Nat → Option ε) (mr : Nat) (h : f 0 = none) :
    attemptLoop f mr 0 (mr + 1) = (0, 0, Except.ok ()) := by
  simp [attemptLoop, h]

theorem attemptLoop_fail_once (f : Nat → Option ε) (mr : Nat) (hmr : 1 ≤ mr)
    (e0 : ε) (h0 : f 0 = some e0) (h1 : f 1 = none) :
    attemptLoop f mr 0 (mr + 1) = (1, 1, Except.ok ()) := by
  cases mr with
  | zero => omega
  | succ m =>
    have hstop : ¬ (m + 1 < 0 + 1) := by omega
    simp only [attemptLoop, h0, if_neg hstop]
    simp [attemptLoop, h1]

theorem addRetryGo_all_ok (f : Nat → Nat → Option ε) (mr : Nat) :
    ∀ (bs : List (List δ)) (idx added tr : Nat),
      (∀ j, idx ≤ j → f j 0 = none) →
      addRetryGo f mr bs idx added tr
        = Except.ok ⟨true, added + (bs.map List.length).sum, tr⟩ := by
  intro bs
  induction bs with
  | nil => intro idx added tr _; simp [addRetryGo]
  | cons b bs ih =>
    intro idx added tr h
    rw [addRetryGo, attemptLoop_first_none (f idx) mr (h idx le_rfl)]
    dsimp only
    rw [ih (idx + 1) (added + b.length) (tr + 0) (fun j hj => h j (by omega))]
    simp [Nat.add_assoc]

theorem addRetryGo_one_fail (f : Nat → Nat → Option ε) (mr : Nat)
    (hmr : 1 ≤ mr) (b0 : Nat) (e0 : ε)
    (hb0 : f b0 0 = some e0) (hb1 : f b0 1 = none)
    (hother : ∀ b r, ¬ (b = b0 ∧ r = 0) → f b r = none) :
    ∀ (bs : List (List δ)) (idx added tr : Nat),
      (idx ≤ b0 → b0 < idx + bs.length →
        addRetryGo f mr bs idx added tr
          = Except.ok ⟨true, added + (bs.map List.length).sum, tr + 1⟩) ∧
      (b0 < idx →
        addRetryGo f mr bs idx added tr
          = Except.ok ⟨true, added + (bs.map List.length).sum, tr⟩) := by
  intro bs
  induction bs with
  | nil =>
    intro idx added tr
    refine ⟨fun h1 h2 => ?_, fun h => ?_⟩
    · simp at h2; omega
    · simp [addRetryGo]
  | cons b bs ih =>
    intro idx added tr
    constructor
    · intro h1 h2
      by_cases hidx : idx = b0
      · subst hidx
        rw [addRetryGo, attemptLoop_fail_once (f idx) mr hmr e0 hb0 hb1]
        dsimp only
        rw [((ih (idx + 1) (added + b.length) (tr + 1)).2 (by omega))]
        simp [Nat.add_assoc]
      · have hnone : f idx 0 = none := hother idx 0 (by tauto)
        rw [addRetryGo, attemptLoop_first_none (f idx) mr hnone]
        dsimp only
        have hrec := (ih (idx + 1) (added + b.length) (tr + 0)).1 (by omega)
          (by simp at h2 ⊢; omega)
        rw [hrec]
        simp [Nat.add_assoc]
    · intro h
      exact addRetryGo_all_ok f mr (b :: bs) idx added tr
        (fun j hj => hother j 0 (by omega))

/-- C6: retry ingestion (i) re-attempts a failing batch at most `max_retries`
additional times, with exactly one fixed-delay sleep between consecutive
attempts of a batch; (ii) when a batch fails `max_retries + 1` times the run
raises the fatal `IndexingError` naming that batch's index and wrapping the
cause raised by its final attempt — every one of its attempts
`0..max_retries` having raised; and (iii) a run in which exactly one batch
fails exactly once and then succeeds returns `success = True` and
`retry_count = 1`, with all documents processed. -/
theorem claim_C6 (documents : List δ) (batchSize maxRetries : Nat)
    (f : Nat → Nat → Option ε) :
    (∀ b u, (attemptLoop (f b) maxRetries 0 (maxRetries + 1)).2.2 = Except.ok u →
        (attemptLoop (f b) maxRetries 0 (maxRetries + 1)).1 ≤ maxRetries ∧
        (attemptLoop (f b) maxRetries 0 (maxRetries + 1)).2.1
          = (attemptLoop (f b) maxRetries 0 (maxRetries + 1)).1) ∧
    (∀ b e, (attemptLoop (f b) maxRetries 0 (maxRetries + 1)).2.2
          = Except.error e →
        (attemptLoop (f b) maxRetries 0 (maxRetries + 1)).1 = maxRetries + 1 ∧
        (attemptLoop (f b) maxRetries 0 (maxRetries + 1)).2.1 = maxRetries) ∧
    (∀ info, add_documents_with_retry documents batchSize maxRetries f
          = Except.error info →
        f info.batchIdx maxRetries = some info.cause ∧
        ∀ r, r ≤ maxRetries → (f info.batchIdx r).isSome) ∧
    (∀ b0 e0, 0 < batchSize → 1 ≤ maxRetries →
        b0 < (chunksOf batchSize documents).length →
        f b0 0 = some e0 → f b0 1 = none →
        (∀ b r, ¬ (b = b0 ∧ r = 0) → f b r = none) →
        add_documents_with_retry documents batchSize maxRetries f
          = Except.ok ⟨true, documents.length, 1⟩) := by
  refine ⟨?_, ?_, ?_, ?_⟩
  · intro b u hu
    exact ((attemptLoop_spec (f b) maxRetries (maxRetries + 1) 0
      (Nat.zero_le _) (by omega)).1 u hu)
  · intro b e he
    have h := (attemptLoop_spec (f b) maxRetries (maxRetries + 1) 0
      (Nat.zero_le _) (by omega)).2 e he
    exact ⟨h.1, h.2.1⟩
  · intro info hinfo
    have herr := addRetryGo_error f maxRetries (chunksOf batchSize documents)
      0 0 0 info hinfo
    have h := (attemptLoop_spec (f info.batchIdx) maxRetries (maxRetries + 1) 0
      (Nat.zero_le _) (by omega)).2 info.cause herr
    exact ⟨h.2.2.1, fun r hr => h.2.2.2 r (Nat.zero_le _) hr⟩
  · intro b0 e0 hbs hmr hb0lt hfail hsucc hother
    have h := (addRetryGo_one_fail f maxRetries hmr b0 e0 hfail hsucc hother
      (chunksOf batchSize documents) 0 0 0).1 (Nat.zero_le _)
      (by simpa using hb0lt)
    rw [add_documents_with_retry, h]
    have hsum : ((chunksOf batchSize documents).map List.length).sum
        = documents.length := chunksGo_sum_length hbs documents.length documents le_rfl
    simp [hsum]

/-- Witness for `claim_C6`: three documents in batches of two with
`max_retries = 3`; batch `0` fails once then succeeds, so the run returns
`success = True`, `processed = 3`, `retry_count = 1`. -/
theorem claim_C6_witness :
    add_documents_with_retry [0, 1, 2] 2 3
        (fun b r => if b = 0 ∧ r = 0 then some () else none)
      = Except.ok ⟨true, 3, 1⟩ :=
  (claim_C6 [0, 1, 2] 2 3
      (fun b r => if b = 0 ∧ r = 0 then some () else none)).2.2.2 0 ()
    (by decide) (by decide) (by decide) (by decide) (by decide)
    (fun b r h => if_neg h)

/-- Python `int(q)` — truncation toward zero. -/
def ratTrunc (q : ℚ) : ℤ :=
  if 0 ≤ q then ((q.num.natAbs / q.den : ℕ) : ℤ)
  else -(((q.num.natAbs / q.den : ℕ) : ℤ))

/-- `calculate_optimal_batch_size` (vectorstore.py lines 13-23).  The source
parameter `memory_usage_ratio` is renamed `memoryUsageFrac` here. -/
def calculate_optimal_batch_size (availableMemoryMb : ℚ) (avgDocSizeBytes : ℤ)
    (minBatchSize maxBatchSize : ℤ) (memoryUsageFrac : ℚ) : ℤ :=
  let availableBytes := availableMemoryMb * 1024 * 1024
  let usableBytes := availableBytes * memoryUsageFrac
  let calculatedSize := ratTrunc (usableBytes / ((max avgDocSizeBytes 1 : ℤ) : ℚ))
  max minBatchSize (min calculatedSize maxBatchSize)

/-- C9: whenever `min_batch_size ≤ max_batch_size` the result is clamped
into `[min_batch_size, max_batch_size]`, and the function is total even at
`avg_doc_size_bytes = 0`: the divisor is clamped to at least `1`
(`max(avg_doc_size_bytes, 1)`), so the `avg = 0` input behaves exactly like
`avg = 1` and no division-by-zero branch is reachable. -/
theorem claim_C9 (availableMemoryMb : ℚ) (avgDocSizeBytes : ℤ)
    (minBatchSize maxBatchSize : ℤ) (memoryUsageFrac : ℚ) :
    (minBatchSize ≤ maxBatchSize →
      minBatchSize ≤ calculate_optimal_batch_size availableMemoryMb
          avgDocSizeBytes minBatchSize maxBatchSize memoryUsageFrac ∧
      calculate_optimal_batch_size availableMemoryMb avgDocSizeBytes
          minBatchSize maxBatchSize memoryUsageFrac ≤ maxBatchSize) ∧
    (1 ≤ max avgDocSizeBytes 1 ∧
      calculate_optimal_batch_size availableMemoryMb 0 minBatchSize
          maxBatchSize memoryUsageFrac
        = calculate_optimal_batch_size availableMemoryMb 1 minBatchSize
            maxBatchSize memoryUsageFrac) := by
  refine ⟨fun h => ⟨le_max_left _ _, max_le h (min_le_right _ _)⟩, ?_, ?_⟩
  · exact le_max_right _ _
  · simp [calculate_optimal_batch_size]

/-- Witness for `claim_C9` at the spec's extreme example:
`available_memory_mb = 1`, `avg_doc_size_bytes = 1_000_000` clamps to the
minimum batch size `10`. -/
theorem claim_C9_witness :
    (10 : ℤ) ≤ calculate_optimal_batch_size 1 1000000 10 1000 (3/10) ∧
    calculate_optimal_batch_size 1 1000000 10 1000 (3/10) ≤ 1000 :=
  (claim_C9 1 1000000 10 1000 (3/10)).1 (by norm_num)

/-! ## Retriever (`src/rag/retriever.py`, class `ReviewRetriever`) -/

/-- One predicate of a Chroma metadata filter, as built by `_build_filter`. -/
inductive FilterCond where
  | category (value : String)
  | sentiment (value : String)
  | productId (value : String)
  | ratingGte (value : ℤ)
  | ratingLte (value : ℤ)
deriving DecidableEq, Repr

/-- The filter structure returned by `_build_filter`: a single unwrapped
condition, or several conditions under an explicit `$and`. -/
inductive ChromaFilter where
  | single (c : FilterCond)
  | andAll (cs : List FilterCond)
deriving DecidableEq, Repr

/-- The `conditions` list built by `_build_filter`: the three string
arguments are tested by Python truthiness (`if category:`), so `None` and
`""` alike contribute nothing, while the rating bounds are tested with
`is not None`, so `0` DOES contribute its predicate. -/
def filterConditions (category : Option String) (minRating maxRating : Option ℤ)
    (sentiment productId : Option String) : List FilterCond :=
  (match category with
   | some s => if s.isEmpty then [] else [FilterCond.category s]
   | none => []) ++
  (match sentiment with
   | some s => if s.isEmpty then [] else [FilterCond.sentiment s]
   | none => []) ++
  (match productId with
   | some s => if s.isEmpty then [] else [FilterCond.productId s]
   | none => []) ++
  (match minRating with
   | some n => [FilterCond.ratingGte n]
   | none => []) ++
  (match maxRating with
   | some n => [FilterCond.ratingLte n]
   | none => [])

/-- `ReviewRetriever._build_filter`: no conditions → `None`; one condition →
unwrapped; several → `$and` of all of them. -/
def build_filter (category : Option String) (minRating maxRating : Option ℤ)
    (sentiment productId : Option String) : Option ChromaFilter :=
  match filterConditions category minRating maxRating sentiment productId with
  | [] => none
  | [c] => some (ChromaFilter.single c)
  | cs => some (ChromaFilter.andAll cs)

/-- C10: an empty-string category / sentiment / product-id argument behaves
exactly like an absent one (and with no other conditions the result is "no
filter"), whereas `min_rating = 0` and `max_rating = 0` DO emit their
inclusive rating-bound predicates. -/
theorem claim_C10 (category sentiment productId : Option String)
    (minRating maxRating : Option ℤ) :
    (build_filter (some "") minRating maxRating sentiment productId
        = build_filter none minRating maxRating sentiment productId) ∧
    (build_filter category minRating maxRating (some "") productId
        = build_filter category minRating maxRating none productId) ∧
    (build_filter category minRating maxRating sentiment (some "")
        = build_filter category minRating maxRating sentiment none) ∧
    (build_filter (some "") none none (some "") (some "") = none) ∧
    (FilterCond.ratingGte 0 ∈
        filterConditions category (some 0) maxRating sentiment productId) ∧
    (FilterCond.ratingLte 0 ∈
        filterConditions category minRating (some 0) sentiment productId) ∧
    (build_filter none (some 0) none none none
        = some (ChromaFilter.single (FilterCond.ratingGte 0))) := by
  have hemp : ("" : String).isEmpty = true := rfl
  refine ⟨rfl, ?_, ?_, rfl, ?_, ?_, rfl⟩
  · simp [build_filter, filterConditions, hemp]
  · simp [build_filter, filterConditions, hemp]
  · simp [filterConditions]
  · simp [filterConditions]

/-- The external services `ReviewRetriever.search` orchestrates, as pure
functions: HyDE expansion (`self.hyde_expander.expand_query`), similarity
search, MMR search, and the attached reranker's `rerank`; `hasReranker`
models `self.reranker` being attached and `useHydeDefault` models
`self.use_hyde`. -/
structure SearchEnv where
  expand : String → String
  simSearch : String → Nat → Option ChromaFilter → List Doc
  mmrSearch : String → Nat → Nat → ℚ → Option ChromaFilter → List Doc
  rerankDocs : String → List Doc → Nat → List Doc

/-- `ReviewRetriever.search`.  `filter_dict if filter_dict else None` is the
identity here because `_build_filter` never returns an empty dictionary.
`fetch_k or k * 4` uses Python truthiness (`pyOrNat`). -/
def search (env : SearchEnv) (hasReranker useHydeDefault : Bool)
    (query : String) (k : Nat)
    (category : Option String) (minRating maxRating : Option ℤ)
    (sentiment productId : Option String)
    (useReranker : Bool) (useHyde : Option Bool) (useMmr : Bool)
    (fetchK : Option Nat) (mmrLambda : ℚ) : List Doc :=
  let filterDict := build_filter category minRating maxRating sentiment productId
  let shouldUseHyde := useHyde.getD useHydeDefault
  let searchQuery := if shouldUseHyde then env.expand query else query
  if useMmr then
    env.mmrSearch searchQuery k (pyOrNat fetchK (k * 4)) mmrLambda filterDict
  else if hasReranker && useReranker then
    env.rerankDocs query
      (env.simSearch searchQuery (pyOrNat fetchK (k * 4)) filterDict) k
  else
    env.simSearch searchQuery k filterDict

/-- C8: with HyDE enabled and a reranker attached and enabled (and MMR off),
`search` fetches the candidates by similarity search on the HyDE-expanded
text with `fetch_k` (default `4*k`) and hands them to the reranker scored
against the ORIGINAL question, never the expanded text. -/
theorem claim_C8 (env : SearchEnv) (useHydeDefault : Bool)
    (query : String) (k : Nat)
    (category : Option String) (minRating maxRating : Option ℤ)
    (sentiment productId : Option String) (useHyde : Option Bool)
    (fetchK : Option Nat) (mmrLambda : ℚ)
    (hhyde : useHyde.getD useHydeDefault = true) :
    search env true useHydeDefault query k category minRating maxRating
        sentiment productId true useHyde false fetchK mmrLambda
      = env.rerankDocs query
          (env.simSearch (env.expand query) (pyOrNat fetchK (k * 4))
            (build_filter category minRating maxRating sentiment productId))
          k ∧
    pyOrNat none (k * 4) = 4 * k := by
  constructor
  · simp [search, hhyde]
  · simp [pyOrNat, Nat.mul_comm]

/-- Witness for `claim_C8` at a concrete environment: the similarity search
receives the expanded text while the reranker receives the original query,
both visible in the output. -/
theorem claim_C8_witness :
    search ⟨fun q => q ++ " expanded", fun q _ _ => [⟨q, []⟩],
        fun _ _ _ _ _ => [], fun q ds _ => ⟨q, []⟩ :: ds⟩
        true false "q" 5 none none none none none true (some true) false none
        (1/2)
      = [⟨"q", []⟩, ⟨"q expanded", []⟩] :=
  ((claim_C8 ⟨fun q => q ++ " expanded", fun q _ _ => [⟨q, []⟩],
      fun _ _ _ _ _ => [], fun q ds _ => ⟨q, []⟩ :: ds⟩
      false "q" 5 none none none none none (some true) none (1/2) rfl).1).trans
    (by decide)

/-! ## Contextual query rewriter (`src/rag/chain.py`,
`ReviewQAChain._build_contextual_query`)

Python strings are modelled as `List Char` so that `len`, slicing and
`[:200]` become `List.length`/`List.take` on code points.  The LLM
(`self.llm.invoke`) is a parameter `llm : List Char → Option (List Char)`
applied to the constructed prompt; `none` models the call raising. -/

/-- The `List Char` view of a string literal. -/
def lit (s : String) : List Char := s.data

/-- A chat-history entry (`{"role": ..., "content": ...}`). -/
structure ChatMsg where
  role : List Char
  content : List Char
deriving DecidableEq, Repr

/-- Python `s.strip()`. -/
def pyStrip (s : List Char) : List Char :=
  ((s.dropWhile Char.isWhitespace).reverse.dropWhile Char.isWhitespace).reverse

/-- Python `s.split()`: split on whitespace runs, dropping empty pieces.
Fuel-based recursion (fuel `s.length` always suffices since each step
consumes at least one character). -/
def pyWordsGo : Nat → List Char → List (List Char)
  | 0, _ => []
  | _ + 1, [] => []
  | fuel + 1, c :: cs =>
    if c.isWhitespace then pyWordsGo fuel cs
    else ((c :: cs).takeWhile (fun x => !x.isWhitespace))
      :: pyWordsGo fuel ((c :: cs).dropWhile (fun x => !x.isWhitespace))

def pyWords (s : List Char) : List (List Char) := pyWordsGo s.length s

/-- `recent_topics`: the user-authored contents of the last six history
entries (`chat_history[-6:]`, i.e. the last three turns). -/
def recentTopicsOf (chatHistory : List ChatMsg) : List (List Char) :=
  ((chatHistory.drop (chatHistory.length - 6)).filter
      (fun m => m.role == lit "user")).map ChatMsg.content

/-- The `context_prompt` f-string of `_build_contextual_query`, built from
the last three recent topics and the current question. -/
def contextPromptOf (question : List Char) (chatHistory : List ChatMsg) :
    List Char :=
  let recentTopics := recentTopicsOf chatHistory
  let lastThree := recentTopics.drop (recentTopics.length - 3)
  lit "이전 대화의 주제를 고려하여 현재 질문에 대한 검색 쿼리를 생성하세요.\n\n이전 질문들:\n"
    ++ List.intercalate (lit "\n") (lastThree.map (fun q => lit "- " ++ q))
    ++ lit "\n\n현재 질문: " ++ question
    ++ lit "\n\n규칙:\n- 현재 질문이 이전 주제와 연관된 경우, 주제를 포함한 검색 쿼리를 생성\n- 현재 질문이 완전히 새로운 주제인 경우, 현재 질문만 반환\n- 검색 쿼리만 출력 (설명 없이)\n\n검색 쿼리:"

/-- `ReviewQAChain._build_contextual_query`: empty history or no user turns
return the question unchanged; on LLM success the stripped response is
truncated to 200 characters only when longer; on LLM failure the
deterministic fallback returns the question followed by the first five
whitespace-separated tokens of the most recent user turn. -/
def build_contextual_query (llm : List Char → Option (List Char))
    (question : List Char) (chatHistory : List ChatMsg) : List Char :=
  if chatHistory.isEmpty then question
  else
    let recentTopics := recentTopicsOf chatHistory
    if recentTopics.isEmpty then question
    else
      match llm (contextPromptOf question chatHistory) with
      | some response =>
        let expandedQuery := pyStrip response
        if 200 < expandedQuery.length then expandedQuery.take 200
        else expandedQuery
      | none =>
        let lastTopic := recentTopics.getLast?.getD []
        let topicKeywords := List.intercalate (lit " ") ((pyWords lastTopic).take 5)
        question ++ lit " " ++ topicKeywords

/-- C4 (counterexample): the 200-character bound does NOT hold on every
path — with an empty history the question is returned unchanged, so a
201-character question yields a 201-character result. -/
theorem claim_C4_counterexample :
    200 < (build_contextual_query (fun _ => none)
        (List.replicate 201 'a') []).length := by
  have h : build_contextual_query (fun _ => none) (List.replicate 201 'a') []
      = List.replicate 201 'a' := rfl
  rw [h, List.length_replicate]
  omega

/-- C4 (amended): only the LLM-success path is truncated to 200 characters;
with an empty history (or a history without user turns) the question is
returned unchanged whatever its length, and on the fallback path (LLM call
raised) the result is the question plus a space plus the first five
whitespace-separated tokens of the most recent user turn, also without
truncation. -/
theorem claim_C4_amended (llm : List Char → Option (List Char))
    (question : List Char) (chatHistory : List ChatMsg) :
    (chatHistory = [] →
      build_contextual_query llm question chatHistory = question) ∧
    (recentTopicsOf chatHistory = [] →
      build_contextual_query llm question chatHistory = question) ∧
    (∀ response, chatHistory ≠ [] → recentTopicsOf chatHistory ≠ [] →
      llm (contextPromptOf question chatHistory) = some response →
      (build_contextual_query llm question chatHistory).length ≤ 200) ∧
    (chatHistory ≠ [] → recentTopicsOf chatHistory ≠ [] →
      llm (contextPromptOf question chatHistory) = none →
      build_contextual_query llm question chatHistory
        = question ++ lit " " ++ List.intercalate (lit " ")
            ((pyWords ((recentTopicsOf chatHistory).getLast?.getD [])).take 5)) := by
  refine ⟨fun h => ?_, fun h => ?_, fun response hne hrt hllm => ?_,
    fun hne hrt hllm => ?_⟩
  · subst h; rfl
  · by_cases hh : chatHistory.isEmpty
    · simp [build_contextual_query, hh]
    · simp [build_contextual_query, hh, h]
  · have hh : chatHistory.isEmpty = false := by
      simpa using hne
    have hrt2 : (recentTopicsOf chatHistory).isEmpty = false := by
      simpa using hrt
    simp only [build_contextual_query, hh, Bool.false_eq_true, if_false,
      hrt2, hllm]
    by_cases hlen : 200 < (pyStrip response).length
    · simp [hlen, List.length_take]
    · simp [hlen]
      omega
  · have hh : chatHistory.isEmpty = false := by simpa using hne
    have hrt2 : (recentTopicsOf chatHistory).isEmpty = false := by simpa using hrt
    simp [build_contextual_query, hh, hrt2, hllm]

/-- Witness for `claim_C4_amended`: a one-turn history and a successful LLM
call produce a result within the 200-character bound. -/
theorem claim_C4_amended_witness :
    (build_contextual_query (fun _ => some (lit "short"))
        (lit "q") [⟨lit "user", lit "topic one"⟩]).length ≤ 200 :=
  (claim_C4_amended (fun _ => some (lit "short")) (lit "q")
      [⟨lit "user", lit "topic one"⟩]).2.2.1 (lit "short")
    (by decide) (by decide) rfl

end ReviewMindRag
